import Mathlib

/-!
Verification of the hybrid crypto model (Hill cipher, S-DES, LSB steganography,
and the orchestrator) against its natural-language specification.

The Python sources are shallowly embedded: strings become lists of
characters, bit strings become lists of natural numbers, images become the
flattened list of their channel bytes (row-major, channel-minor, exactly the
order of numpy flatten in the source), and raised exceptions become
Except results carrying an error kind.
-/

set_option maxRecDepth 10000

namespace HybridCrypto

/-- The error kinds raised by the leaf engines, one constructor per distinct
raise site in the sources (hill_cipher.py, sdes.py, steganography.py,
hybrid_model.py).  The Python code raises ValueError with a message; the
message text is irrelevant to control flow, so only the kind is modelled. -/
inductive CryptoError where
  | invalidHillKey
  | invalidSdesKey
  | capacityExceeded
  | noHiddenMessage
  | badDigit
deriving DecidableEq

deriving instance DecidableEq for Except

namespace Hill

/-- A 2x2 integer key matrix [[a, b], [c, d]], as the numpy array used in
hill_cipher.py. -/
structure Key where
  a : Int
  b : Int
  c : Int
  d : Int
deriving DecidableEq

/-- Python str.isalpha on the Latin-1 range (code points below 256), the
range the Hill theorems quantify over: the ASCII letters, the three signs
at 170 (feminine ordinal), 181 (micro) and 186 (masculine ordinal), and
the accented letters at 192-214, 216-246 and 248-255 (the multiplication
and division signs at 215 and 247 are not letters).  Code points of 256
and above are outside the modelled fragment and are treated as
non-alphabetic, so every theorem over this function restricts its text to
code points below 256. -/
def pyIsAlpha (c : Char) : Bool :=
  decide ((65 ≤ c.toNat ∧ c.toNat ≤ 90) ∨ (97 ≤ c.toNat ∧ c.toNat ≤ 122) ∨
    c.toNat = 170 ∨ c.toNat = 181 ∨ c.toNat = 186 ∨
    (192 ≤ c.toNat ∧ c.toNat ≤ 214) ∨ (216 ≤ c.toNat ∧ c.toNat ≤ 246) ∨
    (248 ≤ c.toNat ∧ c.toNat ≤ 255))

/-- Python char.upper() on the Latin-1 range, as the string it returns:
a-z and the lower-case accented letters at 224-246 and 248-254 map down by
32; 223 (sharp s) upper-cases to the two-letter SS; 181 (micro) to the
Greek capital at 924; 255 to the capital Y-diaeresis at 376; every other
Latin-1 character, including 170 and 186 which have no upper-case form, is
unchanged. -/
def pyUpperChars (c : Char) : List Char :=
  if 97 ≤ c.toNat ∧ c.toNat ≤ 122 then [Char.ofNat (c.toNat - 32)]
  else if c.toNat = 223 then ['S', 'S']
  else if c.toNat = 181 then [Char.ofNat 924]
  else if c.toNat = 255 then [Char.ofNat 376]
  else if (224 ≤ c.toNat ∧ c.toNat ≤ 246) ∨ (248 ≤ c.toNat ∧ c.toNat ≤ 254) then
    [Char.ofNat (c.toNat - 32)]
  else [c]

/-- char.upper() where the source immediately takes ord of the result,
which requires a single character; the one multi-character case in
Latin-1 (the sharp s, whose upper is SS) would raise a TypeError inside
ord and is unreachable in this program, because char_to_num is only
applied to prepared text, which is already upper-cased. -/
def pyUpperChar (c : Char) : Char :=
  match pyUpperChars c with
  | [u] => u
  | _ => c

/-- char_to_num: ord(char.upper()) - ord('A'). -/
def charToNum (ch : Char) : Int :=
  ((pyUpperChar ch).toNat : Int) - 65

/-- num_to_char: chr((num % alphabet_size) + ord('A')) with alphabet_size 26. -/
def numToChar (n : Int) : Char :=
  Char.ofNat ((n % 26).toNat + 65)

/-- The letters-only upper-cased form of a text, the first half of
prepare_text: the join of char.upper() over the characters passing
isalpha. -/
def cleanText (text : List Char) : List Char :=
  (text.filter pyIsAlpha).flatMap pyUpperChars

/-- prepare_text: keep alphabetic characters, upper-case them, and append one
pad letter X when the cleaned length is odd. -/
def prepareText (text : List Char) : List Char :=
  let cleaned := cleanText text
  if cleaned.length % 2 = 1 then cleaned ++ ['X'] else cleaned

/-- The exact integer determinant of a 2x2 matrix.  The source computes
int(np.round(np.linalg.det(matrix))); for every matrix this program builds
(entries in [0, 26), determinant magnitude at most 650) the rounded floating
determinant coincides with the exact one, and the embedding uses the exact
value.  The claim C8 theorem below records the input on which the floating
computation of the source departs from this exact semantics. -/
def det (k : Key) : Int :=
  k.a * k.d - k.b * k.c

/-- validate_key_matrix: true iff gcd(det mod 26, 26) = 1. -/
def validateKeyMatrix (k : Key) : Bool :=
  Int.gcd (det k % 26) 26 == 1

/-- The recursion inside mod_inverse (extended_gcd), returning the pair
(x, y) of Bezout coefficients; the gcd component of the Python triple is
never consumed by mod_inverse, so it is not carried.  A fuel argument makes
the recursion structural; the first argument strictly decreases, so fuel
a + 1 always suffices and the fuel-exhausted branch is unreachable. -/
def egcdAux : Nat → Nat → Nat → Int × Int
  | _, 0, _ => (0, 1)
  | 0, _ + 1, _ => (0, 1)
  | fuel + 1, a + 1, b =>
    let p := egcdAux fuel (b % (a + 1)) (a + 1)
    (p.2 - ((b / (a + 1) : Nat) : Int) * p.1, p.1)

/-- extended_gcd(a, b) restricted to the nonnegative arguments this program
passes to it. -/
def egcd (a b : Nat) : Int × Int :=
  egcdAux (a + 1) a b

/-- mod_inverse(a, m): extended Euclid on (a % m, m), then (x % m + m) % m.
The gcd precondition that the source re-raises on is established by every
caller before this runs. -/
def modInverse (a m : Int) : Int :=
  let x := (egcd (a % m).toNat m.toNat).1
  (x % m + m) % m

/-- matrix_mod_inverse: (det_inverse * adjugate) % mod, entrywise, with the
adjugate [[d, -b], [-c, a]]. -/
def matrixModInverse (k : Key) (m : Int) : Key :=
  let dt := det k % m
  let dInv := modInverse dt m
  { a := dInv * k.d % m
    b := dInv * (-k.b) % m
    c := dInv * (-k.c) % m
    d := dInv * k.a % m }

/-- The per-block loop shared by encrypt and decrypt: each 2-letter block is
a column vector multiplied by the matrix mod 26 (encrypt passes the key,
decrypt its inverse).  A trailing 1-letter block is padded with X inside the
loop as in the source (unreachable after prepare_text, which always yields
even length). -/
def applyBlocks (m : Key) : List Char → List Char
  | c0 :: c1 :: rest =>
    let p0 := charToNum c0
    let p1 := charToNum c1
    numToChar ((m.a * p0 + m.b * p1) % 26) ::
      numToChar ((m.c * p0 + m.d * p1) % 26) :: applyBlocks m rest
  | [c] =>
    let p0 := charToNum c
    let p1 := charToNum 'X'
    [numToChar ((m.a * p0 + m.b * p1) % 26), numToChar ((m.c * p0 + m.d * p1) % 26)]
  | [] => []

/-- encrypt: validate the key, then apply the key matrix blockwise to the
prepared text.  The early return for empty cleaned text in the source is
subsumed by applyBlocks on the empty list. -/
def encrypt (text : List Char) (k : Key) : Except CryptoError (List Char) :=
  if validateKeyMatrix k then Except.ok (applyBlocks k (prepareText text))
  else Except.error CryptoError.invalidHillKey

/-- decrypt: validate the key, invert it mod 26, then apply the inverse
matrix blockwise to the prepared ciphertext. -/
def decrypt (text : List Char) (k : Key) : Except CryptoError (List Char) :=
  if validateKeyMatrix k then
    Except.ok (applyBlocks (matrixModInverse k 26) (prepareText text))
  else Except.error CryptoError.invalidHillKey

end Hill

namespace SDES

/-- Permutation table P10 of sdes.py. -/
def P10 : List Nat := [3, 5, 2, 7, 4, 10, 1, 9, 8, 6]

/-- Selection table P8. -/
def P8 : List Nat := [6, 3, 7, 4, 8, 5, 10, 9]

/-- Initial permutation IP. -/
def IP : List Nat := [2, 6, 3, 1, 4, 8, 5, 7]

/-- Inverse initial permutation IP_INV. -/
def IPinv : List Nat := [4, 1, 3, 5, 7, 2, 8, 6]

/-- Expansion table EP. -/
def EP : List Nat := [4, 1, 2, 3, 2, 3, 4, 1]

/-- Permutation table P4. -/
def P4 : List Nat := [2, 4, 3, 1]

/-- Substitution box S0. -/
def S0 : List (List Nat) := [[1, 0, 3, 2], [3, 2, 1, 0], [0, 2, 1, 3], [3, 1, 3, 2]]

/-- Substitution box S1. -/
def S1 : List (List Nat) := [[0, 1, 2, 3], [2, 0, 1, 3], [3, 0, 1, 0], [2, 1, 0, 3]]

/-- permute: [bits[i-1] for i in table].  Every table entry stays within
range for the inputs this program builds, so the 0 default of getD is never
consulted on those inputs. -/
def permute (bits : List Nat) (table : List Nat) : List Nat :=
  table.map (fun i => bits.getD (i - 1) 0)

/-- left_shift: bits[shifts:] + bits[:shifts]. -/
def leftShift (bits : List Nat) (shifts : Nat) : List Nat :=
  bits.drop shifts ++ bits.take shifts

/-- xor: [b1 ^ b2 for zipped pairs]. -/
def xorBits (b1 b2 : List Nat) : List Nat :=
  List.zipWith (fun x y => x ^^^ y) b1 b2

/-- string_to_bits: 8 bits per character, most significant first; the
explicit 8-element list mirrors the comprehension over range(7, -1, -1). -/
def stringToBits : List Char → List Nat
  | [] => []
  | ch :: rest =>
    let n := ch.toNat
    [(n >>> 7) &&& 1, (n >>> 6) &&& 1, (n >>> 5) &&& 1, (n >>> 4) &&& 1,
     (n >>> 3) &&& 1, (n >>> 2) &&& 1, (n >>> 1) &&& 1, n &&& 1] ++ stringToBits rest

/-- bits_to_string: decode 8 bits at a time, most significant first, keeping
only complete bytes (a trailing group of fewer than 8 bits is dropped by the
len(byte) == 8 guard in the source). -/
def bitsToString : List Nat → List Char
  | b0 :: b1 :: b2 :: b3 :: b4 :: b5 :: b6 :: b7 :: rest =>
    Char.ofNat (b0 * 128 + b1 * 64 + b2 * 32 + b3 * 16 + b4 * 8 + b5 * 4 + b6 * 2 + b7) ::
      bitsToString rest
  | _ => []

/-- int_to_bits: [(num >> i) & 1 for i in range(length-1, -1, -1)]. -/
def intToBits (num len : Nat) : List Nat :=
  (List.range len).reverse.map (fun i => (num >>> i) &&& 1)

/-- A well-formed S-DES key as the spec's data model states it: a 10-character
binary string. -/
def ValidKey (key : List Char) : Prop :=
  key.length = 10 ∧ ∀ ch ∈ key, ch = '0' ∨ ch = '1'

instance (key : List Char) : Decidable (ValidKey key) := by
  unfold ValidKey
  infer_instance

/-- generate_keys on the 10-character binary-string form of the key (the
form the spec's key material uses; the source also accepts a raw bit list).
Raises when the string is not exactly 10 binary digits. -/
def generateKeys (key : List Char) : Except CryptoError (List Nat × List Nat) :=
  if ValidKey key then
    let keyBits := key.map (fun ch => ch.toNat - 48)
    let p10key := permute keyBits P10
    let leftHalf := p10key.take 5
    let rightHalf := p10key.drop 5
    let leftK1 := leftShift leftHalf 1
    let rightK1 := leftShift rightHalf 1
    let k1 := permute (leftK1 ++ rightK1) P8
    let leftK2 := leftShift leftK1 2
    let rightK2 := leftShift rightK1 2
    let k2 := permute (leftK2 ++ rightK2) P8
    Except.ok (k1, k2)
  else Except.error CryptoError.invalidSdesKey

/-- sbox_substitution: rows from bits {0, 3}, columns from bits {1, 2} of
each 4-bit half, each S-box output rendered as 2 bits. -/
def sboxSub (bits : List Nat) : List Nat :=
  let left4 := bits.take 4
  let right4 := bits.drop 4
  let row0 := (left4.getD 0 0) <<< 1 ||| left4.getD 3 0
  let col0 := (left4.getD 1 0) <<< 1 ||| left4.getD 2 0
  let s0out := (S0.getD row0 []).getD col0 0
  let row1 := (right4.getD 0 0) <<< 1 ||| right4.getD 3 0
  let col1 := (right4.getD 1 0) <<< 1 ||| right4.getD 2 0
  let s1out := (S1.getD row1 []).getD col1 0
  intToBits s0out 2 ++ intToBits s1out 2

/-- f_function: expand with EP, xor with the subkey, substitute, permute
with P4. -/
def fFun (rightHalf subkey : List Nat) : List Nat :=
  permute (sboxSub (xorBits (permute rightHalf EP) subkey)) P4

/-- encrypt_block: IP, two Feistel rounds with a swap between them and none
after the second, then IP_INV.  After round 1 the source rebinds
left := old right and right := old left xor f(old right, k1). -/
def encryptBlock (p k1 k2 : List Nat) : List Nat :=
  let ip := permute p IP
  let left := ip.take 4
  let right := ip.drop 4
  let newLeft1 := xorBits left (fFun right k1)
  -- after the swap: left = right, right = newLeft1
  let newLeft2 := xorBits right (fFun newLeft1 k2)
  permute (newLeft2 ++ newLeft1) IPinv

/-- decrypt_block: encrypt_block with the subkeys in reverse order. -/
def decryptBlock (ct k1 k2 : List Nat) : List Nat :=
  encryptBlock ct k2 k1

/-- The zero padding of encrypt: append 0 bits until the length is a
multiple of 8 (closed form of the source's while loop). -/
def pad8 (bits : List Nat) : List Nat :=
  bits ++ List.replicate ((8 - bits.length % 8) % 8) 0

/-- The block loop shared by encrypt and decrypt: apply f to each complete
8-bit block; a trailing block of fewer than 8 bits is skipped (decrypt
skips it explicitly with its len(block) == 8 guard; encrypt never sees one
because its input was padded). -/
def processBlocks (f : List Nat → List Nat) : List Nat → List Nat
  | b0 :: b1 :: b2 :: b3 :: b4 :: b5 :: b6 :: b7 :: rest =>
    f [b0, b1, b2, b3, b4, b5, b6, b7] ++ processBlocks f rest
  | _ => []

/-- encrypt: key schedule, string to bits, zero-pad to a byte multiple,
encrypt each 8-bit block. -/
def encrypt (plaintext : List Char) (key : List Char) : Except CryptoError (List Nat) :=
  (generateKeys key).map fun ks =>
    processBlocks (fun b => encryptBlock b ks.1 ks.2) (pad8 (stringToBits plaintext))

/-- decrypt on a bit list: key schedule, decrypt each complete 8-bit
block. -/
def decryptBits (ciphertextBits : List Nat) (key : List Char) : Except CryptoError (List Nat) :=
  (generateKeys key).map fun ks =>
    processBlocks (fun b => decryptBlock b ks.1 ks.2) ciphertextBits

/-- encrypt_text: encrypt and render each bit with str(bit); the rendering
chr(48 + b) is what str produces on the single-digit bit values that
occur. -/
def encryptText (plaintext : List Char) (key : List Char) : Except CryptoError (List Char) :=
  (encrypt plaintext key).map fun bits => bits.map (fun b => Char.ofNat (48 + b))

/-- int(c) on a single character: its digit value, or a ValueError on a
non-digit. -/
def parseDigit (ch : Char) : Except CryptoError Nat :=
  if 48 ≤ ch.toNat ∧ ch.toNat ≤ 57 then Except.ok (ch.toNat - 48)
  else Except.error CryptoError.badDigit

/-- decrypt_text on the bit-list form of the ciphertext (the isinstance
branch that skips string parsing): decrypt, then bits_to_string. -/
def decryptTextBits (ciphertextBits : List Nat) (key : List Char) :
    Except CryptoError (List Char) :=
  (decryptBits ciphertextBits key).map bitsToString

/-- decrypt_text on the binary-string form: parse each character with
int(c), decrypt, then bits_to_string. -/
def decryptText (ciphertextBinary : List Char) (key : List Char) :
    Except CryptoError (List Char) := do
  let bits ← ciphertextBinary.mapM parseDigit
  decryptTextBits bits key

end SDES

namespace Stego

/-- The fixed end-of-message delimiter of steganography.py. -/
def delimiter : List Char := ['#', '#', '#', 'E', 'N', 'D', '#', '#', '#']

/-- format(ord(char), \x7b08b\x7d): the 8 binary digits of the character
code, most significant first.  Faithful for code points below 256; a wider
character would render with more than 8 digits, and the theorems that need
8-bit fidelity assume code points below 256. -/
def charBinary (ch : Char) : List Nat :=
  let n := ch.toNat
  [(n >>> 7) &&& 1, (n >>> 6) &&& 1, (n >>> 5) &&& 1, (n >>> 4) &&& 1,
   (n >>> 3) &&& 1, (n >>> 2) &&& 1, (n >>> 1) &&& 1, n &&& 1]

/-- string_to_binary: the concatenation of the per-character digit
groups. -/
def stringToBinary : List Char → List Nat
  | [] => []
  | ch :: rest => charBinary ch ++ stringToBinary rest

/-- binary_to_string: decode 8 bits at a time via chr(int(byte, 2)),
keeping only complete bytes. -/
def binaryToString : List Nat → List Char
  | b0 :: b1 :: b2 :: b3 :: b4 :: b5 :: b6 :: b7 :: rest =>
    Char.ofNat (b0 * 128 + b1 * 64 + b2 * 32 + b3 * 16 + b4 * 8 + b5 * 4 + b6 * 2 + b7) ::
      binaryToString rest
  | _ => []

/-- modify_lsb: (pixel_value & 0xFE) | bit. -/
def modifyLsb (pixelValue bit : Nat) : Nat :=
  (pixelValue &&& 0xFE) ||| bit

/-- get_lsb: pixel_value & 1. -/
def getLsb (pixelValue : Nat) : Nat :=
  pixelValue &&& 1

/-- The embedding loop of hide_message over the flattened channel bytes:
overwrite the least significant bit of the i-th byte with the i-th message
bit.  The empty-pixels case with bits remaining is unreachable because
hide_message checks capacity first. -/
def embedBits : List Nat → List Nat → List Nat
  | px, [] => px
  | [], _ :: _ => []
  | p :: ps, b :: bs => modifyLsb p b :: embedBits ps bs

/-- hide_message on an image given as its flattened channel-byte list
(row-major, channel-minor — numpy flatten order).  The capacity check
max_capacity = pixels.size precedes the embedding loop, so a failing call
leaves every byte untouched; the reshape back to the original layout is
the identity on the flat representation and the shape is preserved because
the length is. -/
def hideMessage (img : List Nat) (message : List Char) : Except CryptoError (List Nat) :=
  let binaryMessage := stringToBinary (message ++ delimiter)
  if binaryMessage.length > img.length then Except.error CryptoError.capacityExceeded
  else Except.ok (embedBits img binaryMessage)

/-- The sequence of least significant bits of the flattened image. -/
def lsbs (img : List Nat) : List Nat :=
  img.map getLsb

/-- The delimiter's bit pattern. -/
def delimBits : List Nat :=
  stringToBinary delimiter

/-- The extraction loop of extract_message: append each least significant
bit to the buffer and, after every appended bit, test whether the buffer
ends with the delimiter pattern; on the first match drop the trailing
delimiter and stop; when the image is exhausted return the whole buffer. -/
def extractBits : List Nat → List Nat → List Nat
  | [], acc => acc
  | b :: rest, acc =>
    let acc' := acc ++ [b]
    if delimBits.isSuffixOf acc' then acc'.take (acc'.length - delimBits.length)
    else extractBits rest acc'

/-- extract_message on an image given as its flattened channel-byte list. -/
def extractMessage (img : List Nat) : List Char :=
  let binaryMessage := extractBits (lsbs img) []
  if binaryMessage = [] then [] else binaryToString binaryMessage

/-- The delimiter's bit pattern occurs nowhere in the bit sequence s: no
prefix of s ends with it. -/
def DelimNeverOccurs (s : List Nat) : Prop :=
  ∀ n, n ≤ s.length → ¬ (delimBits.isSuffixOf (s.take n) = true)

instance (s : List Nat) : Decidable (DelimNeverOccurs s) := by
  unfold DelimNeverOccurs
  exact Nat.decidableBallLE _ _

/-- Modelled from the spec: the extraction loop as claim C7 words it, the
delimiter test made only when the accumulated buffer length is a multiple
of 8 (after every completed byte).  steganography.py has no such function;
this reference version exists to compare the source's extract_message
against the claim. -/
def extractBitsAligned : List Nat → List Nat → List Nat
  | [], acc => acc
  | b :: rest, acc =>
    let acc' := acc ++ [b]
    if acc'.length % 8 = 0 ∧ delimBits.isSuffixOf acc' then
      acc'.take (acc'.length - delimBits.length)
    else extractBitsAligned rest acc'

/-- Modelled from the spec: extract_message as claim C7 describes it,
using the byte-aligned delimiter test. -/
def extractMessageAligned (img : List Nat) : List Char :=
  let binaryMessage := extractBitsAligned (lsbs img) []
  if binaryMessage = [] then [] else binaryToString binaryMessage

end Stego

namespace Hybrid

/-- The outcome dictionary of hybrid_model.py, reduced to the fields the
claims speak about: the success tag, the error of a failed run, and the
payload of a successful one. -/
structure EncOutcome where
  success : Bool
  errorKind : Option CryptoError
  hillEncrypted : Option (List Char)
  sdesBinary : Option (List Char)
  stegoImage : Option (List Nat)
deriving DecidableEq

/-- The outcome dictionary of hybrid_decrypt, reduced the same way. -/
structure DecOutcome where
  success : Bool
  errorKind : Option CryptoError
  decryptedText : Option (List Char)
deriving DecidableEq

/-- The try body of hybrid_encrypt with both keys supplied (the random
generation of a missing key is outside this deterministic embedding):
Hill encrypt, SDES encrypt_text, the orchestrator's own capacity
pre-check len(binary) > total_bits, then hide_message. -/
def encryptBody (plaintext : List Char) (hillKey : Hill.Key) (sdesKey : List Char)
    (img : List Nat) : Except CryptoError (List Char × List Char × List Nat) := do
  let hillEncrypted ← Hill.encrypt plaintext hillKey
  let sdesBinary ← SDES.encryptText hillEncrypted sdesKey
  if sdesBinary.length > img.length then
    Except.error CryptoError.capacityExceeded
  else do
    let stego ← Stego.hideMessage img sdesBinary
    Except.ok (hillEncrypted, sdesBinary, stego)

/-- hybrid_encrypt: the catch-all except around the body converts any
raised error into a success False dictionary. -/
def hybridEncrypt (plaintext : List Char) (hillKey : Hill.Key) (sdesKey : List Char)
    (img : List Nat) : EncOutcome :=
  match encryptBody plaintext hillKey sdesKey img with
  | Except.ok r =>
    { success := true, errorKind := none, hillEncrypted := some r.1,
      sdesBinary := some r.2.1, stegoImage := some r.2.2 }
  | Except.error e =>
    { success := false, errorKind := some e, hillEncrypted := none,
      sdesBinary := none, stegoImage := none }

/-- The try body of hybrid_decrypt: extract, raise when the extracted
message is empty, SDES decrypt_text, Hill decrypt. -/
def decryptBody (img : List Nat) (hillKey : Hill.Key) (sdesKey : List Char) :
    Except CryptoError (List Char) := do
  let extracted := Stego.extractMessage img
  if extracted = [] then Except.error CryptoError.noHiddenMessage
  else do
    let hillEncrypted ← SDES.decryptText extracted sdesKey
    Hill.decrypt hillEncrypted hillKey

/-- hybrid_decrypt: the catch-all except around the body converts any
raised error into a success False dictionary. -/
def hybridDecrypt (img : List Nat) (hillKey : Hill.Key) (sdesKey : List Char) : DecOutcome :=
  match decryptBody img hillKey sdesKey with
  | Except.ok text =>
    { success := true, errorKind := none, decryptedText := some text }
  | Except.error e =>
    { success := false, errorKind := some e, decryptedText := none }

end Hybrid

/-! ## Theorems -/

/-- Char.ofNat evaluates to its argument on valid code points below the
surrogate range. -/
theorem charOfNat_toNat {n : Nat} (h : n < 55296) : (Char.ofNat n).toNat = n := by
  have hv : n.isValidChar := Or.inl h
  rw [Char.ofNat, dif_pos hv]
  simp [Char.ofNatAux, Char.toNat, UInt32.toNat, BitVec.toNat_ofNat]

namespace Hill

/-- mod_inverse really inverts: on the reduced determinants in [0, 26)
coprime with 26, the extended-Euclid inverse times the argument is 1
mod 26. -/
theorem modInverse_self (d : Int) (h1 : 0 ≤ d) (h2 : d < 26) (hg : Int.gcd d 26 = 1) :
    (modInverse d 26 * d) % 26 = 1 := by
  interval_cases d <;> first | (exact absurd hg (by decide)) | decide

/-- Casting an integer reduced mod 26 into ZMod 26 equals casting the
integer itself. -/
theorem intCast_emod (a : Int) : (((a % 26 : Int)) : ZMod 26) = (a : ZMod 26) :=
  (ZMod.intCast_eq_intCast_iff _ _ _).mpr (Int.emod_emod_of_dvd a dvd_rfl)

/-- Two integers in [0, 26) that agree in ZMod 26 are equal. -/
theorem intCast_inj (a b : Int) (h : (a : ZMod 26) = (b : ZMod 26)) (ha : 0 ≤ a) (ha' : a < 26)
    (hb : 0 ≤ b) (hb' : b < 26) : a = b := by
  have h2 : a % 26 = b % 26 := (ZMod.intCast_eq_intCast_iff a b 26).mp h
  rwa [Int.emod_eq_of_lt ha ha', Int.emod_eq_of_lt hb hb'] at h2

/-- Applying the inverse matrix to an encrypted block recovers both
residues of the plaintext block. -/
theorem block_entries (k : Key) (hk : validateKeyMatrix k = true) (p0 p1 : Int)
    (hp0 : 0 ≤ p0) (hp0' : p0 < 26) (hp1 : 0 ≤ p1) (hp1' : p1 < 26) :
    ((matrixModInverse k 26).a * ((k.a * p0 + k.b * p1) % 26) +
        (matrixModInverse k 26).b * ((k.c * p0 + k.d * p1) % 26)) % 26 = p0 ∧
    ((matrixModInverse k 26).c * ((k.a * p0 + k.b * p1) % 26) +
        (matrixModInverse k 26).d * ((k.c * p0 + k.d * p1) % 26)) % 26 = p1 := by
  have hg : Int.gcd (det k % 26) 26 = 1 := by
    simpa [validateKeyMatrix] using hk
  have h1 : 0 ≤ det k % 26 := Int.emod_nonneg _ (by norm_num)
  have h2 : det k % 26 < 26 := Int.emod_lt_of_pos _ (by norm_num)
  have hinv := modInverse_self _ h1 h2 hg
  have hz : ((modInverse (det k % 26) 26 : Int) : ZMod 26) *
      (((k.a : Int) : ZMod 26) * ((k.d : Int) : ZMod 26) -
        ((k.b : Int) : ZMod 26) * ((k.c : Int) : ZMod 26)) = 1 := by
    have hc := congrArg (fun z : Int => (z : ZMod 26)) hinv
    simp only [intCast_emod, Int.cast_mul, Int.cast_one] at hc
    have hdet : ((det k : Int) : ZMod 26) =
        ((k.a : Int) : ZMod 26) * ((k.d : Int) : ZMod 26) -
          ((k.b : Int) : ZMod 26) * ((k.c : Int) : ZMod 26) := by
      rw [det]
      push_cast
      ring
    rw [hdet] at hc
    exact hc
  constructor
  · refine intCast_inj _ _ ?_ (Int.emod_nonneg _ (by norm_num))
      (Int.emod_lt_of_pos _ (by norm_num)) hp0 hp0'
    rw [intCast_emod]
    simp only [matrixModInverse]
    push_cast [intCast_emod]
    linear_combination (p0 : ZMod 26) * hz
  · refine intCast_inj _ _ ?_ (Int.emod_nonneg _ (by norm_num))
      (Int.emod_lt_of_pos _ (by norm_num)) hp1 hp1'
    rw [intCast_emod]
    simp only [matrixModInverse]
    push_cast [intCast_emod]
    linear_combination (p1 : ZMod 26) * hz

/-- Upper-case ASCII letters are alphabetic. -/
theorem pyIsAlpha_of_upper {c : Char} (h1 : 65 ≤ c.toNat) (h2 : c.toNat ≤ 90) :
    pyIsAlpha c = true := by
  simp only [pyIsAlpha, decide_eq_true_eq]
  omega

/-- char.upper() leaves an upper-case ASCII letter unchanged. -/
theorem pyUpperChars_of_upper {c : Char} (h2 : c.toNat ≤ 90) :
    pyUpperChars c = [c] := by
  rw [pyUpperChars, if_neg (by omega), if_neg (by omega), if_neg (by omega),
    if_neg (by omega), if_neg (by omega)]

/-- The single-character reading of char.upper() on an upper-case ASCII
letter. -/
theorem pyUpperChar_of_upper {c : Char} (h2 : c.toNat ≤ 90) : pyUpperChar c = c := by
  unfold pyUpperChar
  rw [pyUpperChars_of_upper h2]

/-- An ASCII alphabetic character upper-cases to exactly one character in
the A..Z code-point range. -/
theorem ascii_alpha_upper {c : Char} (halpha : pyIsAlpha c = true) (hascii : c.toNat < 128) :
    ∃ u, pyUpperChars c = [u] ∧ 65 ≤ u.toNat ∧ u.toNat ≤ 90 := by
  simp only [pyIsAlpha, decide_eq_true_eq] at halpha
  rcases halpha with h | h | h | h | h | h | h | h
  · exact ⟨c, pyUpperChars_of_upper h.2, h.1, h.2⟩
  · refine ⟨Char.ofNat (c.toNat - 32), ?_, ?_, ?_⟩
    · rw [pyUpperChars, if_pos (by omega)]
    · rw [charOfNat_toNat (by omega)]
      omega
    · rw [charOfNat_toNat (by omega)]
      omega
  · exact absurd hascii (by omega)
  · exact absurd hascii (by omega)
  · exact absurd hascii (by omega)
  · exact absurd hascii (by omega)
  · exact absurd hascii (by omega)
  · exact absurd hascii (by omega)

/-- The code point of num_to_char's output. -/
theorem numToChar_toNat (n : Int) : (numToChar n).toNat = (n % 26).toNat + 65 := by
  have h1 : 0 ≤ n % 26 := Int.emod_nonneg _ (by norm_num)
  have h2 : n % 26 < 26 := Int.emod_lt_of_pos _ (by norm_num)
  have h3 : (n % 26).toNat < 26 := by omega
  exact charOfNat_toNat (by omega)

/-- num_to_char always produces an upper-case letter. -/
theorem numToChar_range (n : Int) : 65 ≤ (numToChar n).toNat ∧ (numToChar n).toNat ≤ 90 := by
  rw [numToChar_toNat]
  have h1 : 0 ≤ n % 26 := Int.emod_nonneg _ (by norm_num)
  have h2 : n % 26 < 26 := Int.emod_lt_of_pos _ (by norm_num)
  omega

/-- Reading back the residue of an encoded letter reduces mod 26. -/
theorem charToNum_numToChar (n : Int) : charToNum (numToChar n) = n % 26 := by
  have h1 : 0 ≤ n % 26 := Int.emod_nonneg _ (by norm_num)
  have h2 : n % 26 < 26 := Int.emod_lt_of_pos _ (by norm_num)
  have hr := numToChar_range n
  rw [charToNum, pyUpperChar_of_upper hr.2, numToChar_toNat]
  omega

/-- char_to_num of an upper-case letter is its alphabet index. -/
theorem charToNum_of_upper {c : Char} (h1 : 65 ≤ c.toNat) (h2 : c.toNat ≤ 90) :
    charToNum c = (c.toNat : Int) - 65 := by
  rw [charToNum, pyUpperChar_of_upper h2]

/-- char_to_num of an upper-case letter lies in [0, 26). -/
theorem charToNum_range {c : Char} (h1 : 65 ≤ c.toNat) (h2 : c.toNat ≤ 90) :
    0 ≤ charToNum c ∧ charToNum c < 26 := by
  rw [charToNum_of_upper h1 h2]
  omega

/-- num_to_char inverts char_to_num on upper-case letters. -/
theorem numToChar_charToNum {c : Char} (h1 : 65 ≤ c.toNat) (h2 : c.toNat ≤ 90) :
    numToChar (charToNum c) = c := by
  rw [charToNum_of_upper h1 h2, numToChar]
  have he : ((c.toNat : Int) - 65) % 26 = (c.toNat : Int) - 65 :=
    Int.emod_eq_of_lt (by omega) (by omega)
  rw [he]
  have ht : ((c.toNat : Int) - 65).toNat + 65 = c.toNat := by omega
  rw [ht, Char.ofNat_toNat]

/-- Every character the block loop emits is an upper-case letter. -/
theorem applyBlocks_chars (m : Key) :
    ∀ cs : List Char, ∀ c ∈ applyBlocks m cs, 65 ≤ c.toNat ∧ c.toNat ≤ 90
  | [] => by simp [applyBlocks]
  | [c0] => by
    simp only [applyBlocks]
    intro c hc
    rcases List.mem_pair.mp hc with rfl | rfl
    · exact numToChar_range _
    · exact numToChar_range _
  | c0 :: c1 :: rest => by
    simp only [applyBlocks]
    intro c hc
    rcases hc with _ | ⟨_, hc⟩
    · exact numToChar_range _
    · rcases hc with _ | ⟨_, hc⟩
      · exact numToChar_range _
      · exact applyBlocks_chars m rest c hc

/-- On even-length input the block loop preserves the length. -/
theorem applyBlocks_length (m : Key) :
    ∀ cs : List Char, cs.length % 2 = 0 → (applyBlocks m cs).length = cs.length
  | [], _ => rfl
  | [c], h => by simp at h
  | c0 :: c1 :: rest, h => by
    have h' : rest.length % 2 = 0 := by
      simp only [List.length_cons] at h
      omega
    simp only [applyBlocks, List.length_cons]
    rw [applyBlocks_length m rest h']

/-- When every alphabetic character of the text is ASCII, every character
of the cleaned text is an upper-case letter. -/
theorem cleanText_chars (t : List Char)
    (ht : ∀ c ∈ t, pyIsAlpha c = true → c.toNat < 128) :
    ∀ c ∈ cleanText t, 65 ≤ c.toNat ∧ c.toNat ≤ 90 := by
  intro c hc
  rw [cleanText] at hc
  rcases List.mem_flatMap.mp hc with ⟨a, ha, hc⟩
  have halpha : pyIsAlpha a = true := List.of_mem_filter ha
  have hascii : a.toNat < 128 := ht a (List.mem_of_mem_filter ha) halpha
  obtain ⟨u, hu, h1, h2⟩ := ascii_alpha_upper halpha hascii
  rw [hu] at hc
  rcases List.mem_singleton.mp hc with rfl
  exact ⟨h1, h2⟩

/-- When every alphabetic character of the text is ASCII, every character
of the prepared text is an upper-case letter. -/
theorem prepareText_chars (t : List Char)
    (ht : ∀ c ∈ t, pyIsAlpha c = true → c.toNat < 128) :
    ∀ c ∈ prepareText t, 65 ≤ c.toNat ∧ c.toNat ≤ 90 := by
  intro c hc
  rw [prepareText] at hc
  split at hc
  · rcases List.mem_append.mp hc with hm | hm
    · exact cleanText_chars t ht c hm
    · rcases List.mem_singleton.mp hm with rfl
      decide
  · exact cleanText_chars t ht c hc

/-- prepare_text always yields an even length. -/
theorem prepareText_even (t : List Char) : (prepareText t).length % 2 = 0 := by
  rw [prepareText]
  split <;> rename_i h
  · simp only [List.length_append, List.length_singleton]
    omega
  · omega

/-- char.upper() is the identity join on a text it fixes characterwise. -/
theorem flatMap_upper_id (cs : List Char) (h : ∀ c ∈ cs, pyUpperChars c = [c]) :
    cs.flatMap pyUpperChars = cs := by
  induction cs with
  | nil => rfl
  | cons a t ih =>
    rw [List.flatMap_cons, h a (by simp), ih (fun c hc => h c (by simp [hc]))]
    rfl

/-- prepare_text leaves an even-length all-upper-case-letter text
unchanged. -/
theorem prepareText_eq_self (cs : List Char) (h : ∀ c ∈ cs, 65 ≤ c.toNat ∧ c.toNat ≤ 90)
    (hev : cs.length % 2 = 0) : prepareText cs = cs := by
  have hclean : cleanText cs = cs := by
    rw [cleanText]
    have hf : cs.filter pyIsAlpha = cs :=
      List.filter_eq_self.mpr (fun c hc => pyIsAlpha_of_upper (h c hc).1 (h c hc).2)
    rw [hf]
    exact flatMap_upper_id cs (fun c hc => pyUpperChars_of_upper (h c hc).2)
  rw [prepareText]
  simp only [hclean]
  rw [if_neg (by omega)]

/-- Decrypting with the inverse matrix undoes the encryption loop on any
even-length text of upper-case letters. -/
theorem applyBlocks_inv (k : Key) (hk : validateKeyMatrix k = true) :
    ∀ cs : List Char, (∀ c ∈ cs, 65 ≤ c.toNat ∧ c.toNat ≤ 90) → cs.length % 2 = 0 →
      applyBlocks (matrixModInverse k 26) (applyBlocks k cs) = cs
  | [], _, _ => rfl
  | [c], _, hev => by simp at hev
  | c0 :: c1 :: rest, h, hev => by
    have hb0 := h c0 (by simp)
    have hb1 := h c1 (by simp)
    have hr0 := charToNum_range hb0.1 hb0.2
    have hr1 := charToNum_range hb1.1 hb1.2
    have hbe := block_entries k hk (charToNum c0) (charToNum c1) hr0.1 hr0.2 hr1.1 hr1.2
    have hev' : rest.length % 2 = 0 := by
      simp only [List.length_cons] at hev
      omega
    simp only [applyBlocks]
    rw [charToNum_numToChar, charToNum_numToChar,
      Int.emod_emod_of_dvd _ dvd_rfl, Int.emod_emod_of_dvd _ dvd_rfl,
      hbe.1, hbe.2,
      numToChar_charToNum hb0.1 hb0.2, numToChar_charToNum hb1.1 hb1.2,
      applyBlocks_inv k hk rest (fun c hc => h c (by simp [hc])) hev']

/-- C3 as stated fails on the code: Python isalpha keeps the non-ASCII
letter at code point 233 (e-acute) and char.upper() maps it to code point
201, whose alphabet index 136 gets reduced mod 26 by num_to_char, so the
two-character e-acute text has even cleaned length yet round-trips to GG
instead of its cleaned form.  The key is the spec's Scenario A key
[[3, 2], [5, 7]]. -/
theorem claim_C3_counterexample :
    validateKeyMatrix ⟨3, 2, 5, 7⟩ = true ∧
      (cleanText ['é', 'é']).length % 2 = 0 ∧
      cleanText ['é', 'é'] = ['É', 'É'] ∧
      Except.bind (encrypt ['é', 'é'] ⟨3, 2, 5, 7⟩) (fun ct => decrypt ct ⟨3, 2, 5, 7⟩) =
        Except.ok ['G', 'G'] ∧
      (['G', 'G'] : List Char) ≠ ['É', 'É'] := by
  refine ⟨by decide, by decide, by decide, by decide, by decide⟩

/-- C3 amended: for every 2x2 key matrix valid mod 26 and every Latin-1
text (code points below 256, the range this embedding models faithfully)
whose alphabetic characters are all ASCII letters, decrypting the
encryption recovers exactly the cleaned (letters-only, upper-cased) form
when its length is even, and the cleaned form with one trailing pad
letter X when it is odd — so stripping that one pad letter recovers the
cleaned form.  Non-ASCII letters break the claim because char_to_num
maps them outside 0..25 and num_to_char reduces mod 26 (the
counterexample above). -/
theorem claim_C3_hill_round_trip (k : Key) (text : List Char)
    (hk : validateKeyMatrix k = true)
    (htext : ∀ c ∈ text, c.toNat < 256 ∧ (pyIsAlpha c = true → c.toNat < 128)) :
    Except.bind (encrypt text k) (fun ct => decrypt ct k) =
      Except.ok (if (cleanText text).length % 2 = 0 then cleanText text
        else cleanText text ++ ['X']) := by
  rw [encrypt, if_pos hk]
  simp only [Except.bind]
  rw [decrypt, if_pos hk]
  have hchars := applyBlocks_chars k (prepareText text)
  have heven : (applyBlocks k (prepareText text)).length % 2 = 0 := by
    rw [applyBlocks_length k _ (prepareText_even text)]
    exact prepareText_even text
  rw [prepareText_eq_self _ hchars heven,
    applyBlocks_inv k hk _ (prepareText_chars text (fun c hc => (htext c hc).2))
      (prepareText_even text),
    prepareText]
  by_cases h : (cleanText text).length % 2 = 0
  · rw [if_neg (by omega), if_pos h]
  · rw [if_pos (by omega), if_neg h]

/-- Witness for the amended C3 at the key [[3, 2], [5, 7]] and the text
HELLO WORLD of the spec's Scenario A. -/
theorem claim_C3_hill_round_trip_witness :
    validateKeyMatrix ⟨3, 2, 5, 7⟩ = true ∧
      (∀ c ∈ ['H', 'E', 'L', 'L', 'O', ' ', 'W', 'O', 'R', 'L', 'D'],
        c.toNat < 256 ∧ (pyIsAlpha c = true → c.toNat < 128)) ∧
      Except.bind (encrypt ['H', 'E', 'L', 'L', 'O', ' ', 'W', 'O', 'R', 'L', 'D'] ⟨3, 2, 5, 7⟩)
          (fun ct => decrypt ct ⟨3, 2, 5, 7⟩) =
        Except.ok
          (if (cleanText ['H', 'E', 'L', 'L', 'O', ' ', 'W', 'O', 'R', 'L', 'D']).length % 2 = 0
            then cleanText ['H', 'E', 'L', 'L', 'O', ' ', 'W', 'O', 'R', 'L', 'D']
            else cleanText ['H', 'E', 'L', 'L', 'O', ' ', 'W', 'O', 'R', 'L', 'D'] ++ ['X']) :=
  ⟨by decide, by decide, claim_C3_hill_round_trip _ _ (by decide) (by decide)⟩

/-- C8: the spec requires validate_key_matrix to decide invertibility from
the exact integer determinant a*d - b*c.  At [[9007199254740993, 1], [1, 1]]
(the first entry is 2^53 + 1) the exact determinant is 2^53 ≡ 6 (mod 26)
with gcd(6, 26) = 2, so the required answer is False, as this exact-integer
embedding computes.  The source instead evaluates
int(np.round(np.linalg.det(matrix))): in float64 the entry 2^53 + 1 rounds
to 2^53 and the LU determinant evaluates to 2^53 - 1 ≡ 5 (mod 26) with
gcd(5, 26) = 1, so the Python function returns True there, contradicting
the claim and the spec's design note on floating determinants. -/
theorem claim_C8_validate_failing_input :
    validateKeyMatrix ⟨9007199254740993, 1, 1, 1⟩ = false ∧
      det ⟨9007199254740993, 1, 1, 1⟩ % 26 = 6 := by decide

end Hill

namespace SDES

/-- A list of length 4 is a literal 4-element list. -/
theorem exists_four {l : List Nat} (h : l.length = 4) :
    ∃ a b c d, l = [a, b, c, d] := by
  obtain ⟨a, l1, rfl⟩ := List.exists_of_length_succ l (show l.length = 3 + 1 from h)
  simp only [List.length_cons] at h
  obtain ⟨b, l2, rfl⟩ := List.exists_of_length_succ l1 (show l1.length = 2 + 1 by omega)
  simp only [List.length_cons] at h
  obtain ⟨c, l3, rfl⟩ := List.exists_of_length_succ l2 (show l2.length = 1 + 1 by omega)
  simp only [List.length_cons] at h
  obtain ⟨d, l4, rfl⟩ := List.exists_of_length_succ l3 (show l3.length = 0 + 1 by omega)
  simp only [List.length_cons] at h
  have hnil : l4 = [] := List.length_eq_zero.mp (by omega)
  exact ⟨a, b, c, d, by rw [hnil]⟩

/-- A list of length 8 is a literal 8-element list. -/
theorem exists_eight {l : List Nat} (h : l.length = 8) :
    ∃ a b c d e f g h', l = [a, b, c, d, e, f, g, h'] := by
  obtain ⟨a, l1, rfl⟩ := List.exists_of_length_succ l (show l.length = 7 + 1 from h)
  simp only [List.length_cons] at h
  obtain ⟨b, l2, rfl⟩ := List.exists_of_length_succ l1 (show l1.length = 6 + 1 by omega)
  simp only [List.length_cons] at h
  obtain ⟨c, l3, rfl⟩ := List.exists_of_length_succ l2 (show l2.length = 5 + 1 by omega)
  simp only [List.length_cons] at h
  obtain ⟨d, l4, rfl⟩ := List.exists_of_length_succ l3 (show l3.length = 4 + 1 by omega)
  simp only [List.length_cons] at h
  obtain ⟨e, f, g, h', hrest⟩ := exists_four (show l4.length = 4 by omega)
  exact ⟨a, b, c, d, e, f, g, h', by rw [hrest]⟩

/-- The f function always produces 4 bits. -/
theorem fFun_length (r k : List Nat) : (fFun r k).length = 4 := by
  simp [fFun, permute, P4]

/-- One S-DES block transform undoes the other when the subkeys are swapped:
this is the Feistel structure, and it holds for arbitrary subkey lists
because both passes consult the f function at the same arguments. -/
theorem encryptBlock_inv (p k1 k2 : List Nat) (hp : p.length = 8) :
    encryptBlock (encryptBlock p k1 k2) k2 k1 = p := by
  obtain ⟨p0, p1, p2, p3, p4, p5, p6, p7, rfl⟩ := exists_eight hp
  obtain ⟨u0, u1, u2, u3, hu⟩ := exists_four (fFun_length [p3, p7, p4, p6] k1)
  obtain ⟨v0, v1, v2, v3, hv⟩ :=
    exists_four (fFun_length [p1 ^^^ u0, p5 ^^^ u1, p2 ^^^ u2, p0 ^^^ u3] k2)
  simp [encryptBlock, permute, IP, IPinv, xorBits, hu, hv, Nat.xor_cancel_right]

/-- The block loop emits nothing on fewer than 8 bits. -/
theorem processBlocks_short (f : List Nat → List Nat) :
    ∀ l : List Nat, l.length < 8 → processBlocks f l = []
  | [], _ => rfl
  | [_], _ => rfl
  | [_, _], _ => rfl
  | [_, _, _], _ => rfl
  | [_, _, _, _], _ => rfl
  | [_, _, _, _, _], _ => rfl
  | [_, _, _, _, _, _], _ => rfl
  | [_, _, _, _, _, _, _], _ => rfl
  | _ :: _ :: _ :: _ :: _ :: _ :: _ :: _ :: rest, h => by
    exfalso
    simp only [List.length_cons] at h
    omega

/-- Induction on a bit list 8 entries at a time, matching the block loop. -/
theorem chunk8_induction (P : List Nat → Prop) (hshort : ∀ l : List Nat, l.length < 8 → P l)
    (hstep : ∀ b0 b1 b2 b3 b4 b5 b6 b7 (rest : List Nat), P rest →
      P (b0 :: b1 :: b2 :: b3 :: b4 :: b5 :: b6 :: b7 :: rest)) :
    ∀ l : List Nat, P l
  | b0 :: b1 :: b2 :: b3 :: b4 :: b5 :: b6 :: b7 :: rest =>
    hstep b0 b1 b2 b3 b4 b5 b6 b7 rest (chunk8_induction P hshort hstep rest)
  | [] => hshort [] (by simp)
  | [a] => hshort [a] (by simp)
  | [a, b] => hshort [a, b] (by simp)
  | [a, b, c] => hshort [a, b, c] (by simp)
  | [a, b, c, d] => hshort [a, b, c, d] (by simp)
  | [a, b, c, d, e] => hshort [a, b, c, d, e] (by simp)
  | [a, b, c, d, e, f] => hshort [a, b, c, d, e, f] (by simp)
  | [a, b, c, d, e, f, g] => hshort [a, b, c, d, e, f, g] (by simp)

/-- Decrypting blockwise undoes encrypting blockwise on byte-aligned bit
lists. -/
theorem processBlocks_inv (k1 k2 : List Nat) :
    ∀ bits : List Nat, bits.length % 8 = 0 →
      processBlocks (fun b => decryptBlock b k1 k2)
        (processBlocks (fun b => encryptBlock b k1 k2) bits) = bits := by
  intro bits
  induction bits using chunk8_induction with
  | hshort l hl =>
    intro hmul
    have hz : l.length = 0 := by omega
    have : l = [] := List.length_eq_zero.mp hz
    subst this
    rfl
  | hstep b0 b1 b2 b3 b4 b5 b6 b7 rest ih =>
    intro hmul
    have hrest : rest.length % 8 = 0 := by
      simp only [List.length_cons] at hmul
      omega
    have hElen : (encryptBlock [b0, b1, b2, b3, b4, b5, b6, b7] k1 k2).length = 8 := by
      simp [encryptBlock, permute, IPinv]
    obtain ⟨c0, c1, c2, c3, c4, c5, c6, c7, hc⟩ := exists_eight hElen
    have h1 : processBlocks (fun b => encryptBlock b k1 k2)
        (b0 :: b1 :: b2 :: b3 :: b4 :: b5 :: b6 :: b7 :: rest) =
        encryptBlock [b0, b1, b2, b3, b4, b5, b6, b7] k1 k2 ++
          processBlocks (fun b => encryptBlock b k1 k2) rest := rfl
    rw [h1, hc]
    have h2 : processBlocks (fun b => decryptBlock b k1 k2)
        ([c0, c1, c2, c3, c4, c5, c6, c7] ++ processBlocks (fun b => encryptBlock b k1 k2) rest) =
        decryptBlock [c0, c1, c2, c3, c4, c5, c6, c7] k1 k2 ++
          processBlocks (fun b => decryptBlock b k1 k2)
            (processBlocks (fun b => encryptBlock b k1 k2) rest) := rfl
    rw [h2, ← hc, decryptBlock,
      encryptBlock_inv [b0, b1, b2, b3, b4, b5, b6, b7] k1 k2 (by rfl), ih hrest]
    rfl

/-- Every element read out of a 0/1 list with default 0 is 0 or 1. -/
theorem getD_le_one : ∀ (l : List Nat), (∀ x ∈ l, x ≤ 1) → ∀ i : Nat, l.getD i 0 ≤ 1
  | [], _, i => by simp
  | a :: t, h, 0 => by simpa using h a (by simp)
  | a :: t, h, i + 1 => by
    simpa using getD_le_one t (fun x hx => h x (by simp [hx])) i

/-- permute preserves 0/1 bit lists. -/
theorem permute_le_one (bits table : List Nat) (h : ∀ x ∈ bits, x ≤ 1) :
    ∀ x ∈ permute bits table, x ≤ 1 := by
  intro x hx
  rcases List.mem_map.mp hx with ⟨i, _, rfl⟩
  exact getD_le_one bits h (i - 1)

/-- xor of bits is a bit. -/
theorem xor_le_one {a b : Nat} (ha : a ≤ 1) (hb : b ≤ 1) : a ^^^ b ≤ 1 := by
  interval_cases a <;> interval_cases b <;> decide

/-- The xor loop preserves 0/1 bit lists. -/
theorem xorBits_le_one : ∀ (b1 b2 : List Nat), (∀ x ∈ b1, x ≤ 1) → (∀ x ∈ b2, x ≤ 1) →
    ∀ x ∈ xorBits b1 b2, x ≤ 1
  | [], _, _, _ => by simp [xorBits]
  | _ :: _, [], _, _ => by simp [xorBits]
  | a :: t, b :: s, h1, h2 => by
    intro x hx
    rcases hx with _ | ⟨_, hx⟩
    · exact xor_le_one (h1 a (by simp)) (h2 b (by simp))
    · exact xorBits_le_one t s (fun y hy => h1 y (by simp [hy]))
        (fun y hy => h2 y (by simp [hy])) x hx

/-- int_to_bits emits only 0/1 bits. -/
theorem intToBits_le_one (num len : Nat) : ∀ x ∈ intToBits num len, x ≤ 1 := by
  intro x hx
  rcases List.mem_map.mp hx with ⟨i, _, rfl⟩
  exact Nat.and_le_right

/-- The S-box substitution emits only 0/1 bits, whatever its input. -/
theorem sboxSub_le_one (bits : List Nat) : ∀ x ∈ sboxSub bits, x ≤ 1 := by
  intro x hx
  rw [sboxSub] at hx
  rcases List.mem_append.mp hx with hm | hm
  · exact intToBits_le_one _ _ x hm
  · exact intToBits_le_one _ _ x hm

/-- The f function emits only 0/1 bits, whatever its inputs. -/
theorem fFun_le_one (r k : List Nat) : ∀ x ∈ fFun r k, x ≤ 1 := by
  intro x hx
  exact permute_le_one _ _ (sboxSub_le_one _) x hx

/-- The block transform preserves 0/1 bit lists, whatever the subkeys. -/
theorem encryptBlock_le_one (p k1 k2 : List Nat) (hp : ∀ x ∈ p, x ≤ 1) :
    ∀ x ∈ encryptBlock p k1 k2, x ≤ 1 := by
  have hip : ∀ x ∈ permute p IP, x ≤ 1 := permute_le_one p IP hp
  have hl : ∀ x ∈ (permute p IP).take 4, x ≤ 1 := fun x hx => hip x (List.mem_of_mem_take hx)
  have hr : ∀ x ∈ (permute p IP).drop 4, x ≤ 1 := fun x hx => hip x (List.mem_of_mem_drop hx)
  have hn1 : ∀ x ∈ xorBits ((permute p IP).take 4) (fFun ((permute p IP).drop 4) k1), x ≤ 1 :=
    xorBits_le_one _ _ hl (fFun_le_one _ _)
  have hn2 : ∀ x ∈ xorBits ((permute p IP).drop 4)
      (fFun (xorBits ((permute p IP).take 4) (fFun ((permute p IP).drop 4) k1)) k2), x ≤ 1 :=
    xorBits_le_one _ _ hr (fFun_le_one _ _)
  intro x hx
  refine permute_le_one _ IPinv ?_ x hx
  intro y hy
  rcases List.mem_append.mp hy with hm | hm
  · exact hn2 y hm
  · exact hn1 y hm

/-- The block loop preserves 0/1 bit lists when the per-block function
does. -/
theorem processBlocks_le_one (f : List Nat → List Nat)
    (hf : ∀ b : List Nat, (∀ x ∈ b, x ≤ 1) → ∀ x ∈ f b, x ≤ 1) :
    ∀ bits : List Nat, (∀ x ∈ bits, x ≤ 1) → ∀ x ∈ processBlocks f bits, x ≤ 1 := by
  intro bits
  induction bits using chunk8_induction with
  | hshort l hl =>
    intro _ x hx
    rw [processBlocks_short f l hl] at hx
    simp at hx
  | hstep b0 b1 b2 b3 b4 b5 b6 b7 rest ih =>
    intro h x hx
    have hblk : ∀ y ∈ [b0, b1, b2, b3, b4, b5, b6, b7], y ≤ 1 := by
      intro y hy
      simp only [List.mem_cons, List.not_mem_nil, or_false] at hy
      rcases hy with rfl | rfl | rfl | rfl | rfl | rfl | rfl | rfl <;> exact h y (by simp)
    have hx' : x ∈ f [b0, b1, b2, b3, b4, b5, b6, b7] ++ processBlocks f rest := hx
    rcases List.mem_append.mp hx' with hm | hm
    · exact hf _ hblk x hm
    · exact ih (fun y hy => h y (by simp [hy])) x hm

/-- string_to_bits emits only 0/1 bits. -/
theorem stringToBits_le_one : ∀ T : List Char, ∀ x ∈ stringToBits T, x ≤ 1
  | [], x => by simp [stringToBits]
  | c :: rest, x => by
    intro hx
    rw [stringToBits] at hx
    rcases List.mem_append.mp hx with hm | hm
    · simp only [List.mem_cons, List.not_mem_nil, or_false] at hm
      rcases hm with rfl | rfl | rfl | rfl | rfl | rfl | rfl | rfl <;> exact Nat.and_le_right
    · exact stringToBits_le_one rest x hm

/-- string_to_bits emits 8 bits per character. -/
theorem stringToBits_len : ∀ T : List Char, (stringToBits T).length = 8 * T.length
  | [] => rfl
  | c :: rest => by
    rw [stringToBits]
    simp only [List.length_append, List.length_cons, List.length_nil, stringToBits_len rest]
    omega

/-- The zero padding is the identity on byte-aligned bit lists. -/
theorem pad8_of_mul8 {bits : List Nat} (h : bits.length % 8 = 0) : pad8 bits = bits := by
  rw [pad8, h]
  simp

/-- Reassembling the 8 most-significant-first bits of a byte recovers the
byte. -/
theorem byte_recompose : ∀ n : Nat, n < 256 →
    ((n >>> 7) &&& 1) * 128 + ((n >>> 6) &&& 1) * 64 + ((n >>> 5) &&& 1) * 32 +
      ((n >>> 4) &&& 1) * 16 + ((n >>> 3) &&& 1) * 8 + ((n >>> 2) &&& 1) * 4 +
      ((n >>> 1) &&& 1) * 2 + (n &&& 1) = n := by decide

/-- bits_to_string inverts string_to_bits on texts of 8-bit characters. -/
theorem bitsToString_stringToBits : ∀ T : List Char, (∀ c ∈ T, c.toNat < 256) →
    bitsToString (stringToBits T) = T
  | [], _ => rfl
  | c :: rest, h => by
    rw [stringToBits]
    show bitsToString (_ :: _ :: _ :: _ :: _ :: _ :: _ :: _ :: stringToBits rest) = _
    rw [bitsToString]
    rw [byte_recompose c.toNat (h c (by simp)), Char.ofNat_toNat,
      bitsToString_stringToBits rest (fun x hx => h x (by simp [hx]))]

/-- A valid key makes the key schedule succeed. -/
theorem generateKeys_ok (key : List Char) (h : ValidKey key) :
    ∃ k1 k2, generateKeys key = Except.ok (k1, k2) := by
  rw [generateKeys, if_pos h]
  exact ⟨_, _, rfl⟩

/-- Rendering a bit with str and reading it back with int is the
identity. -/
theorem parseDigit_render {b : Nat} (hb : b ≤ 1) :
    parseDigit (Char.ofNat (48 + b)) = Except.ok b := by
  interval_cases b <;> rfl

/-- Parsing the rendered binary string recovers the bit list. -/
theorem mapM_parse_render : ∀ bits : List Nat, (∀ x ∈ bits, x ≤ 1) →
    (bits.map (fun b => Char.ofNat (48 + b))).mapM parseDigit = Except.ok bits
  | [], _ => rfl
  | b :: rest, h => by
    rw [List.map_cons, List.mapM_cons, parseDigit_render (h b (by simp)),
      mapM_parse_render rest (fun x hx => h x (by simp [hx]))]
    rfl

/-- C4 as stated fails on the code: the character with code point 256 is
encoded through only its low 8 bits, so the round trip returns the NUL
character instead of the original text.  The key is the spec's test key
1010000010. -/
theorem claim_C4_counterexample :
    Except.bind
        (encryptText [Char.ofNat 256] ['1', '0', '1', '0', '0', '0', '0', '0', '1', '0'])
        (fun ct => decryptText ct ['1', '0', '1', '0', '0', '0', '0', '0', '1', '0']) ≠
      Except.ok [Char.ofNat 256] := by decide

/-- C4 amended: for every valid 10-bit binary key and every text whose
characters all have code points below 256 (so the 8-bits-per-character
encoding is faithful; its bit length is then a multiple of 8),
decrypt_text of encrypt_text returns exactly the original text. -/
theorem claim_C4_sdes_round_trip (T key : List Char) (hkey : ValidKey key)
    (hT : ∀ c ∈ T, c.toNat < 256) :
    Except.bind (encryptText T key) (fun ct => decryptText ct key) = Except.ok T := by
  obtain ⟨k1, k2, hgen⟩ := generateKeys_ok key hkey
  have hmul : (stringToBits T).length % 8 = 0 := by
    rw [stringToBits_len]
    omega
  rw [encryptText, SDES.encrypt, hgen]
  simp only [Except.map, Except.bind]
  rw [pad8_of_mul8 hmul, decryptText]
  have hct : ∀ x ∈ processBlocks (fun b => encryptBlock b k1 k2) (stringToBits T), x ≤ 1 :=
    processBlocks_le_one _ (fun b hb => encryptBlock_le_one b k1 k2 hb) _
      (stringToBits_le_one T)
  show Except.bind ((List.map _ _).mapM parseDigit) _ = _
  rw [mapM_parse_render _ hct]
  show decryptTextBits _ key = _
  rw [decryptTextBits, decryptBits, hgen]
  simp only [Except.map]
  rw [processBlocks_inv k1 k2 _ hmul, bitsToString_stringToBits T hT]

/-- Witness for the amended C4 at the key 1010000010 and the text Hi. -/
theorem claim_C4_sdes_round_trip_witness :
    ValidKey ['1', '0', '1', '0', '0', '0', '0', '0', '1', '0'] ∧
      (∀ c ∈ ['H', 'i'], c.toNat < 256) ∧
      Except.bind (encryptText ['H', 'i'] ['1', '0', '1', '0', '0', '0', '0', '0', '1', '0'])
          (fun ct => decryptText ct ['1', '0', '1', '0', '0', '0', '0', '0', '1', '0']) =
        Except.ok ['H', 'i'] :=
  ⟨by decide, by decide, claim_C4_sdes_round_trip _ _ (by decide) (by decide)⟩

/-- The block loop ignores a trailing partial block: it only consumes the
longest byte-aligned prefix. -/
theorem processBlocks_take (f : List Nat → List Nat) :
    ∀ l : List Nat, processBlocks f (l.take (8 * (l.length / 8))) = processBlocks f l := by
  intro l
  induction l using chunk8_induction with
  | hshort l hl =>
    have hz : 8 * (l.length / 8) = 0 := by omega
    rw [hz, List.take_zero, processBlocks_short f l hl]
    rfl
  | hstep b0 b1 b2 b3 b4 b5 b6 b7 rest ih =>
    have harith : 8 * ((b0 :: b1 :: b2 :: b3 :: b4 :: b5 :: b6 :: b7 :: rest).length / 8) =
        8 * (rest.length / 8) + 8 := by
      simp only [List.length_cons]
      omega
    rw [harith]
    have htake : (b0 :: b1 :: b2 :: b3 :: b4 :: b5 :: b6 :: b7 :: rest).take
        (8 * (rest.length / 8) + 8) =
        b0 :: b1 :: b2 :: b3 :: b4 :: b5 :: b6 :: b7 :: rest.take (8 * (rest.length / 8)) := by
      rw [show (b0 :: b1 :: b2 :: b3 :: b4 :: b5 :: b6 :: b7 :: rest) =
          [b0, b1, b2, b3, b4, b5, b6, b7] ++ rest from rfl,
        show 8 * (rest.length / 8) + 8 =
          ([b0, b1, b2, b3, b4, b5, b6, b7] : List Nat).length + 8 * (rest.length / 8) by
            simp only [List.length_cons, List.length_nil]
            omega,
        List.take_append]
      rfl
    rw [htake]
    show f _ ++ processBlocks f (rest.take (8 * (rest.length / 8))) = f _ ++ processBlocks f rest
    rw [ih]

/-- C10: block decryption silently discards a trailing group of fewer than
8 bits, so decrypt_text on a bit list equals decrypt_text on its longest
byte-aligned prefix. -/
theorem claim_C10_decrypt_drops_partial_block (b : List Nat) (key : List Char)
    (hkey : ValidKey key) :
    decryptTextBits b key = decryptTextBits (b.take (8 * (b.length / 8))) key := by
  obtain ⟨k1, k2, hgen⟩ := generateKeys_ok key hkey
  rw [decryptTextBits, decryptTextBits, decryptBits, decryptBits, hgen]
  simp only [Except.map]
  rw [processBlocks_take]

/-- Witness for C10 at a 9-bit input whose trailing bit is discarded. -/
theorem claim_C10_witness :
    ValidKey ['1', '0', '1', '0', '0', '0', '0', '0', '1', '0'] ∧
      decryptTextBits [1, 1, 1, 0, 0, 0, 0, 0, 1]
          ['1', '0', '1', '0', '0', '0', '0', '0', '1', '0'] =
        decryptTextBits ([1, 1, 1, 0, 0, 0, 0, 0, 1].take
            (8 * ([1, 1, 1, 0, 0, 0, 0, 0, 1].length / 8)))
          ['1', '0', '1', '0', '0', '0', '0', '0', '1', '0'] :=
  ⟨by decide, claim_C10_decrypt_drops_partial_block _ _ (by decide)⟩

end SDES

namespace Stego

/-- string_to_binary distributes over concatenation. -/
theorem stringToBinary_append : ∀ a b : List Char,
    stringToBinary (a ++ b) = stringToBinary a ++ stringToBinary b
  | [], b => rfl
  | c :: rest, b => by
    show charBinary c ++ stringToBinary (rest ++ b) =
      (charBinary c ++ stringToBinary rest) ++ stringToBinary b
    rw [stringToBinary_append rest b, List.append_assoc]

/-- string_to_binary emits only 0/1 bits. -/
theorem stringToBinary_le_one : ∀ s : List Char, ∀ x ∈ stringToBinary s, x ≤ 1
  | [], x => by simp [stringToBinary]
  | c :: rest, x => by
    intro hx
    rw [stringToBinary] at hx
    rcases List.mem_append.mp hx with hm | hm
    · simp only [charBinary, List.mem_cons, List.not_mem_nil, or_false] at hm
      rcases hm with rfl | rfl | rfl | rfl | rfl | rfl | rfl | rfl <;> exact Nat.and_le_right
    · exact stringToBinary_le_one rest x hm

/-- string_to_binary emits 8 bits per character. -/
theorem stringToBinary_len : ∀ s : List Char, (stringToBinary s).length = 8 * s.length
  | [] => rfl
  | c :: rest => by
    rw [stringToBinary]
    simp only [charBinary, List.length_append, List.length_cons, List.length_nil,
      stringToBinary_len rest]
    omega

/-- binary_to_string inverts string_to_binary on texts of 8-bit
characters. -/
theorem binaryToString_stringToBinary : ∀ s : List Char, (∀ c ∈ s, c.toNat < 256) →
    binaryToString (stringToBinary s) = s
  | [], _ => rfl
  | c :: rest, h => by
    rw [stringToBinary, charBinary]
    show binaryToString (_ :: _ :: _ :: _ :: _ :: _ :: _ :: _ :: stringToBinary rest) = _
    rw [binaryToString]
    rw [SDES.byte_recompose c.toNat (h c (by simp)), Char.ofNat_toNat,
      binaryToString_stringToBinary rest (fun x hx => h x (by simp [hx]))]

/-- modify_lsb writes the bit into the least significant position and
leaves the 7 higher bits of a byte unchanged. -/
theorem modifyLsb_spec : ∀ p : Nat, p < 256 → ∀ b : Nat, b < 2 →
    ((p &&& 254) ||| b) &&& 1 = b ∧ ((p &&& 254) ||| b) >>> 1 = p >>> 1 := by decide

/-- The embedding loop preserves the byte count. -/
theorem embedBits_length : ∀ (px bits : List Nat), bits.length ≤ px.length →
    (embedBits px bits).length = px.length
  | px, [], _ => by simp [embedBits]
  | [], _ :: _, h => by simp at h
  | p :: ps, b :: bs, h => by
    simp only [embedBits, List.length_cons]
    rw [embedBits_length ps bs (by simpa using h)]

/-- The least significant bits of the embedded image are the message bits
followed by the untouched remainder's bits. -/
theorem embedBits_lsbs : ∀ (px bits : List Nat), bits.length ≤ px.length →
    (∀ b ∈ bits, b ≤ 1) → (∀ p ∈ px, p < 256) →
    lsbs (embedBits px bits) = bits ++ lsbs (px.drop bits.length)
  | px, [], _, _, _ => by simp [embedBits]
  | [], _ :: _, h, _, _ => by simp at h
  | p :: ps, b :: bs, h, hb, hp => by
    have hble : b ≤ 1 := hb b (by simp)
    have h1 : getLsb (modifyLsb p b) = b := by
      simp only [getLsb, modifyLsb]
      exact (modifyLsb_spec p (hp p (by simp)) b (by omega)).1
    have ih := embedBits_lsbs ps bs (by simpa using h)
      (fun x hx => hb x (by simp [hx])) (fun x hx => hp x (by simp [hx]))
    simp only [lsbs] at ih ⊢
    simp only [embedBits, List.map_cons, List.cons_append, List.length_cons,
      List.drop_succ_cons, h1, ih]

/-- Inside the message region embedding preserves the 7 high bits of every
byte. -/
theorem embedBits_high : ∀ (px bits : List Nat) (i : Nat), i < bits.length →
    bits.length ≤ px.length → (∀ b ∈ bits, b ≤ 1) → (∀ p ∈ px, p < 256) →
    (embedBits px bits).getD i 0 >>> 1 = px.getD i 0 >>> 1
  | px, [], i, hi, _, _, _ => by simp at hi
  | [], _ :: _, _, _, h, _, _ => by simp at h
  | p :: ps, b :: bs, 0, _, _, hb, hp => by
    simp only [embedBits, List.getD_cons_zero]
    exact (modifyLsb_spec p (hp p (by simp)) b (by
      have := hb b (by simp)
      omega)).2
  | p :: ps, b :: bs, i + 1, hi, h, hb, hp => by
    simp only [embedBits, List.getD_cons_succ]
    exact embedBits_high ps bs i (by simpa using hi) (by simpa using h)
      (fun x hx => hb x (by simp [hx])) (fun x hx => hp x (by simp [hx]))

/-- Beyond the message region embedding leaves every byte untouched. -/
theorem embedBits_beyond : ∀ (px bits : List Nat) (i : Nat), bits.length ≤ i →
    (embedBits px bits).getD i 0 = px.getD i 0
  | px, [], i, _ => by simp [embedBits]
  | [], _ :: _, i, _ => by simp [embedBits]
  | p :: ps, b :: bs, 0, hi => by simp at hi
  | p :: ps, b :: bs, i + 1, hi => by
    simp only [embedBits, List.getD_cons_succ]
    exact embedBits_beyond ps bs i (by simpa using hi)

/-- C5: for messages of 8-bit characters (those for which
format(ord(c), 08b) emits exactly 8 digits, the fragment charBinary
models faithfully; a wider character widens the stream and moves the same
boundary), hide_message raises the capacity error exactly when the
message-plus-delimiter bit length exceeds the number of channel bytes (so
a payload that exactly fills the image succeeds and one bit more fails),
the successful result is the embedded byte list, and that bit length is
8 x (message length + 9).  The capacity check precedes the embedding
loop: in the error case the function returns before any byte is written,
so the cover image is not modified. -/
theorem claim_C5_capacity_boundary (img : List Nat) (msg : List Char)
    (hmsg : ∀ c ∈ msg, c.toNat < 256) :
    (hideMessage img msg = Except.error CryptoError.capacityExceeded ↔
      img.length < (stringToBinary (msg ++ delimiter)).length) ∧
    ((stringToBinary (msg ++ delimiter)).length ≤ img.length →
      hideMessage img msg = Except.ok (embedBits img (stringToBinary (msg ++ delimiter)))) ∧
    (stringToBinary (msg ++ delimiter)).length = 8 * msg.length + 72 := by
  refine ⟨?_, ?_, ?_⟩
  · rw [hideMessage]
    by_cases h : (stringToBinary (msg ++ delimiter)).length > img.length
    · rw [if_pos h]
      simp [h]
    · rw [if_neg h]
      simp
      omega
  · intro h
    rw [hideMessage, if_neg (by omega)]
  · rw [stringToBinary_len]
    simp [delimiter]
    omega

/-- Witness for C5 at the boundary: the one-character message A carries
exactly 80 payload bits, which exactly fill an 80-byte image. -/
theorem claim_C5_witness :
    (∀ c ∈ ['A'], c.toNat < 256) ∧
      ((hideMessage (List.replicate 80 0) ['A'] = Except.error CryptoError.capacityExceeded ↔
          (List.replicate 80 0 : List Nat).length <
            (stringToBinary (['A'] ++ delimiter)).length) ∧
        ((stringToBinary (['A'] ++ delimiter)).length ≤
            (List.replicate 80 0 : List Nat).length →
          hideMessage (List.replicate 80 0) ['A'] =
            Except.ok (embedBits (List.replicate 80 0) (stringToBinary (['A'] ++ delimiter)))) ∧
        (stringToBinary (['A'] ++ delimiter)).length = 8 * (['A'] : List Char).length + 72) :=
  ⟨by decide, claim_C5_capacity_boundary _ _ (by decide)⟩

/-- C6: embedding N message-plus-delimiter bits into an image changes only
the least significant bit of the first N channel bytes in flattening
order: the byte count (hence the shape) is preserved, the 7 high bits of
the first N bytes are preserved, and every byte from index N on is
byte-identical to the original. -/
theorem claim_C6_frame_effect (img : List Nat) (msg : List Char) (out : List Nat)
    (himg : ∀ p ∈ img, p < 256)
    (hok : hideMessage img msg = Except.ok out) :
    out.length = img.length ∧
    (∀ i, i < (stringToBinary (msg ++ delimiter)).length →
      out.getD i 0 >>> 1 = img.getD i 0 >>> 1) ∧
    (∀ i, (stringToBinary (msg ++ delimiter)).length ≤ i →
      out.getD i 0 = img.getD i 0) := by
  rw [hideMessage] at hok
  by_cases h : (stringToBinary (msg ++ delimiter)).length > img.length
  · rw [if_pos h] at hok
    exact absurd hok (by simp)
  · rw [if_neg h] at hok
    have hout : out = embedBits img (stringToBinary (msg ++ delimiter)) := by
      injection hok with hout
      exact hout.symm
    subst hout
    have hle : (stringToBinary (msg ++ delimiter)).length ≤ img.length := by omega
    refine ⟨embedBits_length _ _ hle, ?_, ?_⟩
    · intro i hi
      exact embedBits_high img _ i hi hle (stringToBinary_le_one _) himg
    · intro i hi
      exact embedBits_beyond img _ i hi

/-- Witness for C6: one byte-valued image of 80 bytes and the one-character
message A, whose 80 payload bits exactly fill the image. -/
theorem claim_C6_witness :
    (∀ p ∈ List.replicate 80 7, p < 256) ∧
      hideMessage (List.replicate 80 7) ['A'] =
        Except.ok (embedBits (List.replicate 80 7) (stringToBinary (['A'] ++ delimiter))) ∧
      ((embedBits (List.replicate 80 7) (stringToBinary (['A'] ++ delimiter))).length =
          (List.replicate 80 7).length ∧
        (∀ i, i < (stringToBinary (['A'] ++ delimiter)).length →
          (embedBits (List.replicate 80 7) (stringToBinary (['A'] ++ delimiter))).getD i 0 >>> 1 =
            (List.replicate 80 7).getD i 0 >>> 1) ∧
        (∀ i, (stringToBinary (['A'] ++ delimiter)).length ≤ i →
          (embedBits (List.replicate 80 7) (stringToBinary (['A'] ++ delimiter))).getD i 0 =
            (List.replicate 80 7).getD i 0)) :=
  ⟨by decide, by decide, claim_C6_frame_effect _ _ _ (by decide) (by decide)⟩

/-- When no prefix of the bit stream ends with the delimiter pattern the
extraction loop consumes everything and returns the whole buffer. -/
theorem extract_no_match : ∀ (s acc : List Nat),
    (∀ n, n ≤ s.length → ¬ (delimBits.isSuffixOf (acc ++ s.take n) = true)) →
    extractBits s acc = acc ++ s
  | [], acc, _ => by simp [extractBits]
  | b :: rest, acc, h => by
    simp only [extractBits]
    rw [if_neg (by
      have h1 := h 1 (by simp)
      simpa using h1)]
    have ih := extract_no_match rest (acc ++ [b]) (by
      intro n hn
      have := h (n + 1) (by simpa using hn)
      simpa [List.append_assoc] using this)
    rw [ih]
    simp

/-- When the first prefix of the stream ending with the delimiter pattern
is the n-bit one, the extraction loop stops there and returns that buffer
without its trailing delimiter bits. -/
theorem extract_first_match : ∀ (s acc : List Nat) (n : Nat), 1 ≤ n → n ≤ s.length →
    delimBits.isSuffixOf (acc ++ s.take n) = true →
    (∀ m, m < n → ¬ (delimBits.isSuffixOf (acc ++ s.take m) = true)) →
    extractBits s acc = (acc ++ s.take n).take ((acc ++ s.take n).length - delimBits.length)
  | [], _, n, h1, h2, _, _ => by
    simp at h2
    omega
  | b :: rest, acc, 1, _, _, h3, _ => by
    simp only [extractBits]
    rw [if_pos (by simpa using h3)]
    simp
  | b :: rest, acc, n + 2, _, h2, h3, h4 => by
    simp only [extractBits]
    rw [if_neg (by
      have := h4 1 (by omega)
      simpa using this)]
    have ih := extract_first_match rest (acc ++ [b]) (n + 1) (by omega)
      (by simpa using h2)
      (by
        rw [List.append_assoc]
        simpa using h3)
      (by
        intro m hm
        have := h4 (m + 1) (by omega)
        rw [List.append_assoc]
        simpa using this)
    rw [ih]
    simp [List.append_assoc]

/-- C1 as stated fails on the code: on an 8-byte all-zero image (whose LSB
stream contains no delimiter pattern) extract_message returns the one-NUL
string obtained by decoding the whole LSB stream, not an empty result. -/
theorem claim_C1_counterexample :
    DelimNeverOccurs (lsbs (List.replicate 8 0)) ∧
      extractMessage (List.replicate 8 0) = [Char.ofNat 0] ∧
      extractMessage (List.replicate 8 0) ≠ [] := by
  refine ⟨by decide, by decide, by decide⟩

/-- C1 amended: when the delimiter's bit pattern occurs nowhere in the LSB
stream, extract_message raises no error and returns the 8-bits-at-a-time
decode of the entire LSB stream (an empty result only for images with fewer
than 8 channel bytes), rather than an empty result in general. -/
theorem claim_C1_extract_without_delimiter (img : List Nat)
    (h : DelimNeverOccurs (lsbs img)) :
    extractMessage img = binaryToString (lsbs img) := by
  simp only [extractMessage]
  have he : extractBits (lsbs img) [] = lsbs img := by
    have := extract_no_match (lsbs img) [] (by
      intro n hn
      simpa using h n hn)
    simpa using this
  rw [he]
  by_cases hnil : lsbs img = []
  · rw [if_pos hnil, hnil]
    rfl
  · rw [if_neg hnil]

/-- Witness for the amended C1 at a 2-byte image. -/
theorem claim_C1_witness :
    DelimNeverOccurs (lsbs [1, 1]) ∧
      extractMessage [1, 1] = binaryToString (lsbs [1, 1]) :=
  ⟨by decide, claim_C1_extract_without_delimiter _ (by decide)⟩

/-- C7 as stated fails on the code: at the 80-byte image whose LSB stream
is one 0 bit, then the 72 delimiter bits, then 7 more 0 bits, the
delimiter match ends at bit 73 — not at a byte boundary.  The source,
which tests after every bit, stops there and returns an empty string; the
byte-aligned extractor of the claim never fires and decodes all 80 bits
into 10 characters. -/
theorem claim_C7_counterexample :
    extractMessage (0 :: delimBits ++ List.replicate 7 0) ≠
      extractMessageAligned (0 :: delimBits ++ List.replicate 7 0) := by decide

/-- C7 amended: the delimiter match is tested after every appended bit (not
only after completed bytes); extraction stops at the first bit position n
whose buffer ends with the delimiter pattern, discards the delimiter bits,
and decodes the remaining n - 72 bits 8 at a time, dropping a trailing
partial byte. -/
theorem claim_C7_first_bitwise_match (img : List Nat) (n : Nat) (h1 : 1 ≤ n)
    (h2 : n ≤ (lsbs img).length)
    (h3 : delimBits.isSuffixOf ((lsbs img).take n) = true)
    (h4 : ∀ m, m < n → ¬ (delimBits.isSuffixOf ((lsbs img).take m) = true)) :
    extractMessage img = binaryToString ((lsbs img).take (n - delimBits.length)) := by
  have he := extract_first_match (lsbs img) [] n h1 h2 (by simpa using h3)
    (by
      intro m hm
      simpa using h4 m hm)
  simp only [List.nil_append] at he
  have hlen : ((lsbs img).take n).length = n := by
    rw [List.length_take]
    omega
  rw [hlen, List.take_take, min_eq_left (by omega)] at he
  simp only [extractMessage]
  rw [he]
  by_cases hnil : (lsbs img).take (n - delimBits.length) = []
  · rw [if_pos hnil, hnil]
    rfl
  · rw [if_neg hnil]

/-- Witness for the amended C7: the 72-byte image whose bytes are the
delimiter bits themselves; the first match ends at bit 72 and the decoded
remainder is empty. -/
theorem claim_C7_witness :
    1 ≤ 72 ∧ 72 ≤ (lsbs delimBits).length ∧
      delimBits.isSuffixOf ((lsbs delimBits).take 72) = true ∧
      (∀ m, m < 72 → ¬ (delimBits.isSuffixOf ((lsbs delimBits).take m) = true)) ∧
      extractMessage delimBits = binaryToString ((lsbs delimBits).take (72 - delimBits.length)) :=
  ⟨by decide, by decide, by decide, by decide,
    claim_C7_first_bitwise_match _ 72 (by decide) (by decide) (by decide) (by decide)⟩

/-- C2 as stated fails on the code: hiding the message ###END### (which
contains the delimiter pattern) in a 144-byte all-zero image fits the
capacity exactly, but extraction stops at the message's own delimiter
bits and returns the empty string instead of the message. -/
theorem claim_C2_counterexample :
    hideMessage (List.replicate 144 0) delimiter =
        Except.ok (embedBits (List.replicate 144 0) (stringToBinary (delimiter ++ delimiter))) ∧
      Except.map extractMessage (hideMessage (List.replicate 144 0) delimiter) ≠
        Except.ok delimiter := by
  refine ⟨by decide, by decide⟩

/-- C2 amended: embed-then-extract returns exactly the original message for
every message of 8-bit characters whose message-plus-delimiter bit stream
first ends with the delimiter pattern at its very end (in particular the
message must not itself contain the delimiter), on every image with enough
channel bytes. -/
theorem claim_C2_stego_round_trip (img : List Nat) (msg : List Char)
    (hmsg : ∀ c ∈ msg, c.toNat < 256) (himg : ∀ p ∈ img, p < 256)
    (hcap : (stringToBinary (msg ++ delimiter)).length ≤ img.length)
    (hfirst : ∀ m, m < (stringToBinary (msg ++ delimiter)).length →
      ¬ (delimBits.isSuffixOf ((stringToBinary (msg ++ delimiter)).take m) = true)) :
    Except.map extractMessage (hideMessage img msg) = Except.ok msg := by
  simp only [hideMessage]
  rw [if_neg (by omega)]
  simp only [Except.map]
  congr 1
  have hbits := stringToBinary_le_one (msg ++ delimiter)
  have hstream : lsbs (embedBits img (stringToBinary (msg ++ delimiter))) =
      stringToBinary (msg ++ delimiter) ++
        lsbs (img.drop (stringToBinary (msg ++ delimiter)).length) :=
    embedBits_lsbs img _ hcap hbits himg
  have hsplit : stringToBinary (msg ++ delimiter) = stringToBinary msg ++ delimBits :=
    stringToBinary_append msg delimiter
  have hdlen : delimBits.length = 72 := by decide
  have hSlen : (stringToBinary (msg ++ delimiter)).length =
      (stringToBinary msg).length + 72 := by
    rw [hsplit, List.length_append, hdlen]
  have hn1 : 1 ≤ (stringToBinary (msg ++ delimiter)).length := by omega
  have h2 : (stringToBinary (msg ++ delimiter)).length ≤
      (lsbs (embedBits img (stringToBinary (msg ++ delimiter)))).length := by
    rw [hstream, List.length_append]
    omega
  have htaken : (lsbs (embedBits img (stringToBinary (msg ++ delimiter)))).take
      (stringToBinary (msg ++ delimiter)).length = stringToBinary (msg ++ delimiter) := by
    rw [hstream, List.take_left]
  have h3 : delimBits.isSuffixOf
      ((lsbs (embedBits img (stringToBinary (msg ++ delimiter)))).take
        (stringToBinary (msg ++ delimiter)).length) = true := by
    rw [htaken, hsplit]
    exact List.isSuffixOf_iff_suffix.mpr (List.suffix_append _ _)
  have h4 : ∀ m, m < (stringToBinary (msg ++ delimiter)).length →
      ¬ (delimBits.isSuffixOf
        ((lsbs (embedBits img (stringToBinary (msg ++ delimiter)))).take m) = true) := by
    intro m hm
    rw [hstream, List.take_append_of_le_length (by omega)]
    exact hfirst m hm
  have he := extract_first_match (lsbs (embedBits img (stringToBinary (msg ++ delimiter)))) []
    (stringToBinary (msg ++ delimiter)).length hn1 h2 (by simpa using h3)
    (by
      intro m hm
      simpa using h4 m hm)
  simp only [List.nil_append] at he
  rw [htaken] at he
  have hM : (stringToBinary (msg ++ delimiter)).take
      ((stringToBinary (msg ++ delimiter)).length - delimBits.length) =
      stringToBinary msg := by
    rw [show (stringToBinary (msg ++ delimiter)).length - delimBits.length =
      (stringToBinary msg).length by omega]
    rw [hsplit, List.take_left]
  rw [hM] at he
  simp only [extractMessage]
  rw [he]
  by_cases hnil : stringToBinary msg = []
  · have hmsgnil : msg = [] := by
      have hl := stringToBinary_len msg
      rw [hnil] at hl
      simp only [List.length_nil] at hl
      exact List.length_eq_zero.mp (by omega)
    rw [if_pos hnil, hmsgnil]
  · rw [if_neg hnil]
    exact binaryToString_stringToBinary msg hmsg

/-- Witness for the amended C2: the message A embedded into an 80-byte
image of bytes 3; the 80 payload bits exactly fill the image. -/
theorem claim_C2_witness :
    (∀ c ∈ ['A'], c.toNat < 256) ∧ (∀ p ∈ List.replicate 80 3, p < 256) ∧
      (stringToBinary (['A'] ++ delimiter)).length ≤ (List.replicate 80 3 : List Nat).length ∧
      (∀ m, m < (stringToBinary (['A'] ++ delimiter)).length →
        ¬ (delimBits.isSuffixOf ((stringToBinary (['A'] ++ delimiter)).take m) = true)) ∧
      Except.map extractMessage (hideMessage (List.replicate 80 3) ['A']) = Except.ok ['A'] :=
  ⟨by decide, by decide, by decide, by decide,
    claim_C2_stego_round_trip _ _ (by decide) (by decide) (by decide) (by decide)⟩

end Stego

namespace Hybrid

/-- C9: neither orchestrator entry point ever propagates an error to the
caller.  For every input, hybrid_encrypt and hybrid_decrypt return a tagged
outcome: success True with no error exactly when the try body (the chain of
leaf-engine calls) succeeds, and success False carrying exactly the error
the failing leaf engine raised (invalid Hill key, invalid S-DES key,
capacity exceeded, no hidden message, or a non-digit in the bit string)
otherwise.  The conversion happens only at this boundary: the leaf
embeddings above all fail hard with an Except error. -/
theorem claim_C9_fail_soft :
    (∀ (pt : List Char) (hk : Hill.Key) (sk : List Char) (img : List Nat),
      ((hybridEncrypt pt hk sk img).success = true ∧
        (hybridEncrypt pt hk sk img).errorKind = none ∧
        ∃ r, encryptBody pt hk sk img = Except.ok r) ∨
      ((hybridEncrypt pt hk sk img).success = false ∧
        ∃ e, (hybridEncrypt pt hk sk img).errorKind = some e ∧
          encryptBody pt hk sk img = Except.error e)) ∧
    (∀ (img : List Nat) (hk : Hill.Key) (sk : List Char),
      ((hybridDecrypt img hk sk).success = true ∧
        (hybridDecrypt img hk sk).errorKind = none ∧
        ∃ r, decryptBody img hk sk = Except.ok r) ∨
      ((hybridDecrypt img hk sk).success = false ∧
        ∃ e, (hybridDecrypt img hk sk).errorKind = some e ∧
          decryptBody img hk sk = Except.error e)) := by
  constructor
  · intro pt hk sk img
    rcases hb : encryptBody pt hk sk img with e | r
    · right
      simp [hybridEncrypt, hb]
    · left
      simp [hybridEncrypt, hb]
  · intro img hk sk
    rcases hb : decryptBody img hk sk with e | r
    · right
      simp [hybridDecrypt, hb]
    · left
      simp [hybridDecrypt, hb]

end Hybrid

end HybridCrypto
